import Mathlib

/-!
Verification of the `leaf` MongoDB connection pool (`db/mongodb/mongodb.go`).

The Go file implements a fixed-size pool of `*mongo.Client` handles kept in a
min-heap ordered by use count (`ref`), with borrow (`Ref`) / return (`UnRef`)
operations, eager construction (`ConnectWithTimeout`), teardown (`Close`), and
three derived operations built on a borrowed client (`EnsureCounter`,
`NextSeq`, `ensureIndex`).

The shallow embedding below models:
  * a `Client` as its opaque connection id plus the two bookkeeping fields;
  * the heap as a `List Client`, with `Swap`/`Less` and Go's `container/heap`
    `down`/`up`/`Fix`/`Init` algorithms translated literally (structural fuel
    replaces the `for` loops; the fuel chosen at every call site provably
    exceeds the loop bound, so exhaustion is unreachable);
  * the external mongo driver as oracles: liveness-probe and reconnect
    outcomes are boolean parameters, server-side faults are `Option Nat`
    error codes, and the persisted counter records are an association list;
  * driver calls with external effects (`Ping`, `Disconnect`, `mongo.Connect`,
    index creation) as emitted events, so that control-flow claims about when
    those calls happen are statable.
-/

namespace LeafMongo

/-- Embeds the Go `Client` struct: `conn` stands for the opaque
`*mongo.Client` (an id chosen by the connect oracle), `ref` is the use
count (a Go `int`), `index` the heap slot recorded for `heap.Fix`.
The Go zero value corresponds to `default`. -/
structure Client where
  conn : Nat
  ref : Int
  index : Nat
deriving DecidableEq, Repr, Inhabited

abbrev ClientHeap := List Client

/-- `h[i].ref`; out-of-range reads yield the zero `Client` (such reads would
panic in Go and are proved unreachable on the verified paths). -/
def refAt (h : ClientHeap) (i : Nat) : Int :=
  (h.getD i default).ref

/-- `h[i].index`. -/
def idxAt (h : ClientHeap) (i : Nat) : Nat :=
  (h.getD i default).index

/-- `h[i].Client` (the underlying connection id). -/
def connAt (h : ClientHeap) (i : Nat) : Nat :=
  (h.getD i default).conn

/-- Embeds `ClientHeap.Swap`: exchange slots `i` and `j` and refresh the two
`index` fields. -/
def swapH (h : ClientHeap) (i j : Nat) : ClientHeap :=
  let a := h.getD i default
  let b := h.getD j default
  (h.set i { b with index := i }).set j { a with index := j }

theorem length_swapH (h : ClientHeap) (i j : Nat) :
    (swapH h i j).length = h.length := by
  simp [swapH]

theorem getD_eq_getElem (h : ClientHeap) (i : Nat) (hi : i < h.length) :
    h.getD i default = h[i] := by
  simp [List.getD_eq_getElem?_getD, List.getElem?_eq_getElem hi]

theorem getD_set_of_lt (h : ClientHeap) (k : Nat) (c : Client) (m : Nat)
    (hk : k < h.length) :
    (h.set k c).getD m default = if m = k then c else h.getD m default := by
  rw [List.getD_eq_getElem?_getD, List.getD_eq_getElem?_getD, List.getElem?_set]
  by_cases hmk : m = k
  · subst hmk; simp [hk]
  · simp [Ne.symm hmk, hmk]

theorem refAt_swapH (h : ClientHeap) (i j k : Nat)
    (hi : i < h.length) (hj : j < h.length) :
    refAt (swapH h i j) k =
      if k = j then refAt h i else if k = i then refAt h j else refAt h k := by
  unfold refAt swapH
  rw [getD_set_of_lt _ _ _ _ (by simpa using hj),
    getD_set_of_lt _ _ _ _ hi]
  by_cases hkj : k = j
  · subst hkj; simp
  · by_cases hki : k = i
    · subst hki; simp [hkj]
    · simp [hkj, hki]

theorem idxAt_swapH (h : ClientHeap) (i j k : Nat)
    (hi : i < h.length) (hj : j < h.length) :
    idxAt (swapH h i j) k =
      if k = j then j else if k = i then i else idxAt h k := by
  unfold idxAt swapH
  rw [getD_set_of_lt _ _ _ _ (by simpa using hj),
    getD_set_of_lt _ _ _ _ hi]
  by_cases hkj : k = j
  · subst hkj; simp
  · by_cases hki : k = i
    · subst hki; simp [hkj]
    · simp [hkj, hki]

theorem refAt_set (h : ClientHeap) (k : Nat) (c : Client) (m : Nat)
    (hk : k < h.length) :
    refAt (h.set k c) m = if m = k then c.ref else refAt h m := by
  unfold refAt
  rw [getD_set_of_lt _ _ _ _ hk]
  by_cases hmk : m = k <;> simp [hmk]

theorem idxAt_set (h : ClientHeap) (k : Nat) (c : Client) (m : Nat)
    (hk : k < h.length) :
    idxAt (h.set k c) m = if m = k then c.index else idxAt h m := by
  unfold idxAt
  rw [getD_set_of_lt _ _ _ _ hk]
  by_cases hmk : m = k <;> simp [hmk]

/-- The child index `j` chosen by the body of `container/heap.down`:
the left child `2*i+1`, or the right child `2*i+2` when it exists and
`Less(j2, j1)` holds (i.e. has the strictly smaller `ref`). -/
def pickChild (h : ClientHeap) (n i : Nat) : Nat :=
  if 2*i+2 < n ∧ refAt h (2*i+2) < refAt h (2*i+1) then 2*i+2 else 2*i+1

/-- Embeds the loop of `container/heap.down` for `ClientHeap` (`Less` compares
`ref` fields). `fuel` bounds the iteration count; every call site passes fuel
`≥ n - i`, which `downGo_fuel_ge` below shows is enough for the fuel never to
run out before the loop exits on its own. -/
def downGo (fuel n : Nat) (h : ClientHeap) (i : Nat) : ClientHeap × Nat :=
  match fuel with
  | 0 => (h, i)
  | fuel + 1 =>
    if 2*i+1 < n then
      let j := pickChild h n i
      if refAt h j < refAt h i then downGo fuel n (swapH h i j) j
      else (h, i)
    else (h, i)

/-- Embeds the loop of `container/heap.up`. Per iteration `j` strictly
decreases, so fuel `j+1` always suffices. -/
def upGo (fuel : Nat) (h : ClientHeap) (j : Nat) : ClientHeap × Nat :=
  match fuel with
  | 0 => (h, j)
  | fuel + 1 =>
    if (j-1)/2 = j ∨ ¬ refAt h j < refAt h ((j-1)/2) then (h, j)
    else upGo fuel (swapH h ((j-1)/2) j) ((j-1)/2)

/-- Embeds `heap.Fix(h, i)`: run `down`; when it reports no movement
(`i` did not strictly increase), run `up`. Also returns the final slot of the
element that started at slot `i`. -/
def fixH (h : ClientHeap) (i : Nat) : ClientHeap × Nat :=
  let d := downGo (h.length + 1) h.length h i
  if i < d.2 then d else upGo (i + 1) d.1 i

/-- Embeds the loop of `heap.Init`: `down` at `n/2 - 1, ..., 0`. `k` is the
count of indices still to process. -/
def initAux (n k : Nat) (h : ClientHeap) : ClientHeap :=
  match k with
  | 0 => h
  | k + 1 => initAux n k (downGo (n+1) n h k).1

/-- Embeds `heap.Init(&c.clients)` as called by `ConnectWithTimeout`. -/
def initH (h : ClientHeap) : ClientHeap :=
  initAux h.length (h.length / 2) h

/-- The min-heap ordering property: every non-root slot's `ref` is `≥` its
parent's. This is the invariant `container/heap` maintains. -/
def isHeap (h : ClientHeap) : Prop :=
  ∀ c, 0 < c → c < h.length → refAt h ((c-1)/2) ≤ refAt h c

/-- Every in-heap client's `index` field equals its actual slot. -/
def idxOK (h : ClientHeap) : Prop :=
  ∀ i, i < h.length → idxAt h i = i

theorem pickChild_child (h : ClientHeap) (n i : Nat) :
    pickChild h n i = 2*i+1 ∨ pickChild h n i = 2*i+2 := by
  unfold pickChild; split <;> simp

theorem pickChild_parent (h : ClientHeap) (n i : Nat) :
    (pickChild h n i - 1) / 2 = i := by
  rcases pickChild_child h n i with hc | hc <;> rw [hc] <;> omega

theorem pickChild_gt (h : ClientHeap) (n i : Nat) : i < pickChild h n i := by
  rcases pickChild_child h n i with hc | hc <;> omega

theorem pickChild_lt_n (h : ClientHeap) (n i : Nat) (hn : 2*i+1 < n) :
    pickChild h n i < n := by
  unfold pickChild; split <;> omega

theorem pickChild_min (h : ClientHeap) (n i : Nat) (_h1 : 2*i+1 < n) :
    ∀ c, 0 < c → c < n → (c-1)/2 = i →
      refAt h (pickChild h n i) ≤ refAt h c := by
  intro c hc0 hcn hcp
  have hc : c = 2*i+1 ∨ c = 2*i+2 := by omega
  unfold pickChild
  split
  · next hcond =>
    rcases hc with hc | hc <;> subst hc
    · exact le_of_lt hcond.2
    · exact le_refl _
  · next hcond =>
    rcases hc with hc | hc <;> subst hc
    · exact le_refl _
    · have : ¬ refAt h (2*i+2) < refAt h (2*i+1) := fun hlt => hcond ⟨by omega, hlt⟩
      omega

theorem length_downGo (fuel n : Nat) (h : ClientHeap) (i : Nat) :
    (downGo fuel n h i).1.length = h.length := by
  induction fuel generalizing h i with
  | zero => rfl
  | succ fuel ih =>
    unfold downGo
    dsimp only
    split
    · split
      · rw [ih]; exact length_swapH h i _
      · rfl
    · rfl

theorem length_upGo (fuel : Nat) (h : ClientHeap) (j : Nat) :
    (upGo fuel h j).1.length = h.length := by
  induction fuel generalizing h j with
  | zero => rfl
  | succ fuel ih =>
    unfold upGo
    split
    · rfl
    · rw [ih]; exact length_swapH h _ j

theorem length_fixH (h : ClientHeap) (i : Nat) :
    (fixH h i).1.length = h.length := by
  unfold fixH
  dsimp only
  split
  · exact length_downGo _ _ h i
  · rw [length_upGo, length_downGo]

theorem length_initAux (n k : Nat) (h : ClientHeap) :
    (initAux n k h).length = h.length := by
  induction k generalizing h with
  | zero => rfl
  | succ k ih => unfold initAux; rw [ih, length_downGo]

theorem length_initH (h : ClientHeap) : (initH h).length = h.length :=
  length_initAux _ _ h

theorem refAt_swapH_fst (h : ClientHeap) (i j : Nat)
    (hi : i < h.length) (hj : j < h.length) (hne : i ≠ j) :
    refAt (swapH h i j) i = refAt h j := by
  rw [refAt_swapH h i j i hi hj]; simp [hne]

theorem refAt_swapH_snd (h : ClientHeap) (i j : Nat)
    (hi : i < h.length) (hj : j < h.length) :
    refAt (swapH h i j) j = refAt h i := by
  rw [refAt_swapH h i j j hi hj]; simp

theorem refAt_swapH_other (h : ClientHeap) (i j k : Nat)
    (hi : i < h.length) (hj : j < h.length) (hk1 : k ≠ i) (hk2 : k ≠ j) :
    refAt (swapH h i j) k = refAt h k := by
  rw [refAt_swapH h i j k hi hj]; simp [hk1, hk2]

/-- Correctness of the `down` loop. Precondition: the heap property holds for
every parent-child pair whose parent is not the exempt slot `i` (this includes
the pair between `i` and its own parent), and `i`'s parent is `≤` both of
`i`'s children ("hole" property). Postcondition: a full heap. -/
theorem downGo_isHeap (fuel n : Nat) (h : ClientHeap) (i : Nat)
    (hn : n = h.length) (hfuel : n ≤ fuel + i)
    (hA : ∀ c, 0 < c → c < n → (c-1)/2 ≠ i → refAt h ((c-1)/2) ≤ refAt h c)
    (hC : ∀ c, 0 < c → c < n → (c-1)/2 = i → 0 < i → refAt h ((i-1)/2) ≤ refAt h c) :
    isHeap (downGo fuel n h i).1 := by
  induction fuel generalizing h i with
  | zero =>
    show isHeap h
    intro c hc0 hcn
    exact hA c hc0 (by omega) (by omega)
  | succ fuel ih =>
    unfold downGo
    dsimp only
    by_cases h2 : 2*i+1 < n
    · rw [if_pos h2]
      set j := pickChild h n i with hj_def
      have hj_i : i < j := pickChild_gt h n i
      have hj_n : j < n := pickChild_lt_n h n i h2
      have hj_p : (j-1)/2 = i := pickChild_parent h n i
      have hi_len : i < h.length := by omega
      have hj_len : j < h.length := by omega
      by_cases hswap : refAt h j < refAt h i
      · rw [if_pos hswap]
        apply ih (swapH h i j) j (by rw [length_swapH]; exact hn) (by omega)
        · -- (A) at the new exempt slot j
          intro c hc0 hcn hcpj
          by_cases hcj : c = j
          · subst hcj
            rw [hj_p, refAt_swapH_fst h i j hi_len hj_len (by omega),
              refAt_swapH_snd h i j hi_len hj_len]
            exact le_of_lt hswap
          · by_cases hci : c = i
            · rw [hci]
              have h0i : 0 < i := hci ▸ hc0
              have hp_i : (i-1)/2 ≠ i := by omega
              have hp_j : (i-1)/2 ≠ j := by omega
              rw [refAt_swapH_other h i j _ hi_len hj_len hp_i hp_j,
                refAt_swapH_fst h i j hi_len hj_len (by omega)]
              exact hC j (by omega) hj_n hj_p h0i
            · by_cases hcp_i : (c-1)/2 = i
              · rw [hcp_i, refAt_swapH_fst h i j hi_len hj_len (by omega),
                  refAt_swapH_other h i j c hi_len hj_len hci hcj]
                have hm := pickChild_min h n i h2 c hc0 hcn hcp_i
                rw [← hj_def] at hm
                exact hm
              · rw [refAt_swapH_other h i j _ hi_len hj_len hcp_i hcpj,
                  refAt_swapH_other h i j c hi_len hj_len hci hcj]
                exact hA c hc0 hcn hcp_i
        · -- hole property at j
          intro c hc0 hcn hcp hj0
          have hc_gt : j < c := by omega
          rw [hj_p, refAt_swapH_fst h i j hi_len hj_len (by omega),
            refAt_swapH_other h i j c hi_len hj_len (by omega) (by omega)]
          have ha := hA c hc0 hcn (by omega)
          rw [hcp] at ha
          exact ha
      · rw [if_neg hswap]
        show isHeap h
        intro c hc0 hcn
        by_cases hcp : (c-1)/2 = i
        · rw [hcp]
          have h1 : refAt h i ≤ refAt h j := not_lt.mp hswap
          have h2' := pickChild_min h n i h2 c hc0 (by omega) hcp
          rw [← hj_def] at h2'
          omega
        · exact hA c hc0 (by omega) hcp
    · rw [if_neg h2]
      show isHeap h
      intro c hc0 hcn
      by_cases hcp : (c-1)/2 = i
      · omega
      · exact hA c hc0 (by omega) hcp

/-- `down` is a no-op when the slot is already `≤` its in-range children. -/
theorem downGo_noswap (fuel n : Nat) (h : ClientHeap) (i : Nat)
    (hle : ∀ c, 0 < c → c < n → (c-1)/2 = i → refAt h i ≤ refAt h c) :
    downGo fuel n h i = (h, i) := by
  cases fuel with
  | zero => rfl
  | succ fuel =>
    unfold downGo
    dsimp only
    by_cases h2 : 2*i+1 < n
    · rw [if_pos h2]
      have hpc : ¬ refAt h (pickChild h n i) < refAt h i := by
        have := hle (pickChild h n i) (by have := pickChild_gt h n i; omega)
          (pickChild_lt_n h n i h2) (pickChild_parent h n i)
        omega
      rw [if_neg hpc]
    · rw [if_neg h2]

/-- `up` is a no-op on a valid heap. -/
theorem upGo_stop (fuel : Nat) (h : ClientHeap) (e : Nat)
    (he_len : e < h.length) (hh : isHeap h) : upGo fuel h e = (h, e) := by
  cases fuel with
  | zero => rfl
  | succ fuel =>
    unfold upGo
    by_cases he : (e-1)/2 = e
    · rw [if_pos (Or.inl he)]
    · have h0 : 0 < e := by omega
      rw [if_pos (Or.inr (not_lt.mpr (hh e h0 he_len)))]

/-- Correctness of the `up` loop. Precondition: the heap property holds for
every parent-child pair whose child is not the exempt slot `e`, and `e`'s
parent is `≤` `e`'s children. Postcondition: a full heap. -/
theorem upGo_isHeap (fuel : Nat) (h : ClientHeap) (e : Nat)
    (hfuel : e < fuel) (he : e < h.length)
    (hA : ∀ c, 0 < c → c < h.length → c ≠ e → refAt h ((c-1)/2) ≤ refAt h c)
    (hC : ∀ c, 0 < c → c < h.length → (c-1)/2 = e → 0 < e → refAt h ((e-1)/2) ≤ refAt h c) :
    isHeap (upGo fuel h e).1 := by
  induction fuel generalizing h e with
  | zero => omega
  | succ fuel ih =>
    unfold upGo
    by_cases hstop : (e-1)/2 = e ∨ ¬ refAt h e < refAt h ((e-1)/2)
    · rw [if_pos hstop]
      show isHeap h
      intro c hc0 hcn
      by_cases hce : c = e
      · subst hce
        rcases hstop with hpe | hnlt
        · rw [hpe]
        · omega
      · exact hA c hc0 hcn hce
    · rw [if_neg hstop]
      push_neg at hstop
      obtain ⟨hpe, hlt⟩ := hstop
      have h0e : 0 < e := by omega
      have hi_lt : (e-1)/2 < e := by omega
      have hi_len : (e-1)/2 < h.length := by omega
      apply ih (swapH h ((e-1)/2) e) ((e-1)/2) (by omega)
        (by rw [length_swapH]; omega)
      · -- (A) at the new exempt slot (e-1)/2
        intro c hc0 hcn hci
        rw [length_swapH] at hcn
        by_cases hce : c = e
        · subst hce
          rw [refAt_swapH_fst h _ c hi_len he (by omega),
            refAt_swapH_snd h _ c hi_len he]
          exact le_of_lt hlt
        · by_cases hcpe : (c-1)/2 = e
          · have hgt : e < c := by omega
            rw [hcpe, refAt_swapH_snd h _ e hi_len he,
              refAt_swapH_other h _ e c hi_len he (by omega) (by omega)]
            exact hC c hc0 hcn hcpe h0e
          · by_cases hcpi : (c-1)/2 = (e-1)/2
            · rw [hcpi, refAt_swapH_fst h _ e hi_len he (by omega),
                refAt_swapH_other h _ e c hi_len he hci hce]
              have h1 := hA c hc0 hcn hce
              rw [hcpi] at h1
              omega
            · rw [refAt_swapH_other h _ e _ hi_len he hcpi hcpe,
                refAt_swapH_other h _ e c hi_len he hci hce]
              exact hA c hc0 hcn hce
      · -- hole property at (e-1)/2
        intro c hc0 hcn hcpi h0i
        rw [length_swapH] at hcn
        have hg_i : ((e-1)/2-1)/2 ≠ (e-1)/2 := by omega
        have hg_e : ((e-1)/2-1)/2 ≠ e := by omega
        rw [refAt_swapH_other h _ e _ hi_len he hg_i hg_e]
        by_cases hce : c = e
        · subst hce
          rw [refAt_swapH_snd h _ c hi_len he]
          exact hA _ h0i hi_len (by omega)
        · have hc_i : c ≠ (e-1)/2 := by omega
          rw [refAt_swapH_other h _ e c hi_len he hc_i hce]
          have h1 := hA _ h0i hi_len (by omega)
          have h2 := hA c hc0 hcn hce
          rw [hcpi] at h2
          omega

/-- The central lemma: if `h` differs from a valid heap `h0` only in the `ref`
value at slot `k`, then `heap.Fix(h, k)` restores a valid heap. This covers
both `Ref` (increment at slot 0) and `UnRef` (decrement at `s.index`). -/
theorem isHeap_fixH (h0 h : ClientHeap) (k : Nat)
    (hlen : h.length = h0.length) (hk : k < h0.length)
    (hsame : ∀ m, m ≠ k → refAt h m = refAt h0 m)
    (hh : isHeap h0) : isHeap (fixH h k).1 := by
  have hk_len : k < h.length := by omega
  by_cases hviol : ∀ c, 0 < c → c < h.length → (c-1)/2 = k → refAt h k ≤ refAt h c
  · -- no downward violation: down is a no-op; up restores from below
    have hns := downGo_noswap (h.length + 1) h.length h k hviol
    unfold fixH
    dsimp only
    rw [hns]
    dsimp only
    rw [if_neg (lt_irrefl k)]
    apply upGo_isHeap (k+1) h k (by omega) hk_len
    · intro c hc0 hcn hce
      by_cases hcp : (c-1)/2 = k
      · rw [hcp]; exact hviol c hc0 hcn hcp
      · rw [hsame c hce, hsame _ hcp]
        exact hh c hc0 (by omega)
    · intro c hc0 hcn hcp h0k
      have hc_ne : c ≠ k := by omega
      have hp_ne : (k-1)/2 ≠ k := by omega
      rw [hsame c hc_ne, hsame _ hp_ne]
      have h1 := hh k h0k hk
      have h2 := hh c hc0 (by omega)
      rw [hcp] at h2
      omega
  · -- downward violation: the value at `k` grew; down restores
    push_neg at hviol
    obtain ⟨c0, hc00, hc0n, hc0p, hc0lt⟩ := hviol
    have hincr : refAt h0 k < refAt h k := by
      have hc0k : c0 ≠ k := by omega
      have h1 : refAt h0 k ≤ refAt h c0 := by
        rw [hsame c0 hc0k]
        have := hh c0 hc00 (by omega)
        rw [hc0p] at this
        exact this
      omega
    have hA : ∀ c, 0 < c → c < h.length → (c-1)/2 ≠ k →
        refAt h ((c-1)/2) ≤ refAt h c := by
      intro c hc0 hcn hcp
      by_cases hck : c = k
      · subst hck
        rw [hsame _ hcp]
        have := hh c hc0 hk
        omega
      · rw [hsame c hck, hsame _ hcp]
        exact hh c hc0 (by omega)
    have hC : ∀ c, 0 < c → c < h.length → (c-1)/2 = k → 0 < k →
        refAt h ((k-1)/2) ≤ refAt h c := by
      intro c hc0 hcn hcp h0k
      have hc_ne : c ≠ k := by omega
      have hp_ne : (k-1)/2 ≠ k := by omega
      rw [hsame c hc_ne, hsame _ hp_ne]
      have h1 := hh k h0k hk
      have h2 := hh c hc0 (by omega)
      rw [hcp] at h2
      omega
    have hdown := downGo_isHeap (h.length + 1) h.length h k rfl (by omega) hA hC
    unfold fixH
    dsimp only
    by_cases hmoved : k < (downGo (h.length + 1) h.length h k).2
    · rw [if_pos hmoved]
      exact hdown
    · rw [if_neg hmoved]
      rw [upGo_stop (k+1) _ k (by rw [length_downGo]; exact hk_len) hdown]
      exact hdown

/-- Observable driver calls made by the pool: a liveness probe
(`Ping`), a disconnect (`Disconnect`), an attempt to dial a fresh connection
(`mongo.Connect`), and a diagnostic log line carrying a nonzero ref count. -/
inductive Ev where
  | ping (c : Nat)
  | disc (c : Nat)
  | connAtt
  | log (r : Int)
deriving DecidableEq, Repr

/-- The tail of `Ref` common to all successful paths: `s.ref++` followed by
`heap.Fix(&c.clients, 0)`. Returns the acquired client's final slot, the new
heap, and the events so far. -/
def refDone (st : ClientHeap) (evs : List Ev) : Except Nat Nat × ClientHeap × List Ev :=
  let s := st.getD 0 default
  let d := fixH (st.set 0 { s with ref := s.ref + 1 }) 0
  (.ok d.2, d.1, evs)

/-- Embeds `ConnectionContext.Ref`. `pingOk` is the outcome of `s.Ping`;
`reconn` is the outcome of the `mongo.Connect` retry (a fresh connection id,
or an error code). `.error e` in the first component models `return nil, err`
with the connect error; `.ok p` returns the acquired client (by its final
heap slot). -/
def refOp (st : ClientHeap) (pingOk : Bool) (reconn : Except Nat Nat) :
    Except Nat Nat × ClientHeap × List Ev :=
  let s := st.getD 0 default
  if s.ref = 0 then
    if pingOk then
      refDone st [Ev.ping s.conn]
    else
      match reconn with
      | .error e => (.error e, st, [Ev.ping s.conn, Ev.disc s.conn, Ev.connAtt])
      | .ok nc =>
        refDone (st.set 0 { s with conn := nc })
          [Ev.ping s.conn, Ev.disc s.conn, Ev.connAtt]
  else
    refDone st []

/-- Embeds `ConnectionContext.UnRef` for a non-nil client, identified by its
current slot `p` (the Go code receives the pointer; under `idxOK` the pointer
and its slot are interchangeable). Note the fix runs at the client's stored
`index` field, exactly as in the source. -/
def unRefOp (st : ClientHeap) (p : Nat) : ClientHeap :=
  let s := st.getD p default
  (fixH (st.set p { s with ref := s.ref - 1 }) s.index).1

instance : DecidableEq (Except Nat Nat) := fun a b => by
  cases a <;> cases b
  case error.error x y =>
    exact if h : x = y then .isTrue (by rw [h]) else .isFalse (by simp [h])
  case error.ok x y => exact .isFalse (by simp)
  case ok.error x y => exact .isFalse (by simp)
  case ok.ok x y =>
    exact if h : x = y then .isTrue (by rw [h]) else .isFalse (by simp [h])

/-- One pool call by some caller: an acquire with given oracle outcomes, or a
release of the client currently in slot `p`. -/
inductive PoolOp where
  | acq (pingOk : Bool) (reconn : Except Nat Nat)
  | rel (p : Nat)
deriving DecidableEq, Repr

/-- The pool state after one call. A failed acquire leaves the state as the
code's error path does (no mutation); a release is modelled for any client
actually in the pool. -/
def stepOp (st : ClientHeap) (op : PoolOp) : ClientHeap :=
  match op with
  | .acq pingOk reconn => (refOp st pingOk reconn).2.1
  | .rel p => if p < st.length then unRefOp st p else st

/-- The pool state after a sequence of calls. -/
def run (st : ClientHeap) (ops : List PoolOp) : ClientHeap :=
  ops.foldl stepOp st

/-- Like `run`, but refuses (returns `none`) as soon as a release targets a
client with no outstanding acquire (`ref ≤ 0`); used to state the amended
non-negativity claim. -/
def runCk (st : ClientHeap) : List PoolOp → Option ClientHeap
  | [] => some st
  | op :: ops =>
    match op with
    | .acq pingOk reconn => runCk (stepOp st (.acq pingOk reconn)) ops
    | .rel p =>
      if p < st.length ∧ 0 < refAt st p then runCk (stepOp st (.rel p)) ops
      else none

/-- Embeds `ConnectionContext.Close`: walk the heap, disconnect every client,
and log a diagnostic for each one whose ref count is nonzero. -/
def closeOp (st : ClientHeap) : List Ev :=
  match st with
  | [] => []
  | s :: rest =>
    Ev.disc s.conn :: ((if s.ref ≠ 0 then [Ev.log s.ref] else []) ++ closeOp rest)

/-- Embeds the `clientNum` fixup in `ConnectWithTimeout`: a non-positive
count is replaced by 100. -/
def effN (cn : Int) : Nat :=
  if cn ≤ 0 then 100 else cn.toNat

/-- Embeds the connection loop of `ConnectWithTimeout`: `k` connections left
to dial, `i` the index of the next one; `connect` is the `mongo.Connect`
oracle returning either a fresh connection id or an error code. The loop
aborts on the first error. -/
def buildClients (connect : Nat → Except Nat Nat) (k i : Nat) (acc : ClientHeap) :
    Except Nat ClientHeap :=
  match k with
  | 0 => .ok acc
  | k + 1 =>
    match connect i with
    | .error e => .error e
    | .ok c => buildClients connect k (i+1) (acc ++ [{ conn := c, ref := 0, index := i }])

/-- Embeds `ConnectWithTimeout` (timeouts live inside the `connect` oracle):
dial `effN cn` clients eagerly, abort on the first failure, then `heap.Init`. -/
def mkPool (cn : Int) (connect : Nat → Except Nat Nat) : Except Nat ClientHeap :=
  match buildClients connect (effN cn) 0 [] with
  | .error e => .error e
  | .ok cls => .ok (initH cls)

/-- A counter record key: database, collection, `_id`. -/
abbrev CKey := String × String × String

/-- The persisted counter records: an association list from key to `seq`. -/
abbrev Store := List (CKey × Int)

def lookupSeq (store : Store) (k : CKey) : Option Int :=
  match store with
  | [] => none
  | kv :: rest => if kv.1 = k then some kv.2 else lookupSeq rest k

def setSeq (store : Store) (k : CKey) (v : Int) : Store :=
  store.map (fun kv => if kv.1 = k then (kv.1, v) else kv)

/-- Errors surfaced by the pool's derived operations: a failed acquire
(`Ref` returned an error), mongo's `ErrNoDocuments`, or any other
server-side error code. -/
inductive DBErr where
  | connFail (e : Nat)
  | noDocuments
  | storeErr (e : Nat)
deriving DecidableEq, Repr

/-- Outcome of the driver's `InsertOne`. -/
inductive InsRes where
  | inserted
  | dupKey
  | failed (e : Nat)
deriving DecidableEq, Repr

/-- Model of the driver/server `InsertOne` on the counter collection: a
record whose `_id` already exists yields a duplicate-key error; `fault`
injects any other server error. -/
def insertOne (store : Store) (k : CKey) (v : Int) (fault : Option Nat) :
    InsRes × Store :=
  match fault with
  | some e => (.failed e, store)
  | none =>
    if (lookupSeq store k).isSome then (.dupKey, store)
    else (.inserted, store ++ [(k, v)])

/-- Embeds `ConnectionContext.EnsureCounter`: acquire, insert
`{_id: cid, seq: 0}`, treat duplicate-key as success, release. -/
def EnsureCounter (st : ClientHeap) (store : Store) (pingOk : Bool)
    (reconn : Except Nat Nat) (fault : Option Nat) (db coll cid : String) :
    Option DBErr × ClientHeap × Store :=
  match refOp st pingOk reconn with
  | (.error e, st1, _) => (some (.connFail e), st1, store)
  | (.ok p, st1, _) =>
    let r := insertOne store (db, coll, cid) 0 fault
    let st2 := unRefOp st1 p
    match r.1 with
    | .dupKey => (none, st2, r.2)
    | .inserted => (none, st2, r.2)
    | .failed e => (some (.storeErr e), st2, r.2)

/-- Model of the driver/server `FindOneAndUpdate` with `$inc {seq: 1}` and
`ReturnDocument(After)`: atomic at the store, returns the post-increment
value; absent record yields `ErrNoDocuments` and the decoded zero value. -/
def findAndInc (store : Store) (k : CKey) (fault : Option Nat) :
    Option DBErr × Store × Int :=
  match fault with
  | some e => (some (.storeErr e), store, 0)
  | none =>
    match lookupSeq store k with
    | none => (some .noDocuments, store, 0)
    | some v => (none, setSeq store k (v+1), v+1)

/-- Embeds `ConnectionContext.NextSeq`: acquire, find-and-increment, release;
returns `(res.Seq, err)`. -/
def NextSeq (st : ClientHeap) (store : Store) (pingOk : Bool)
    (reconn : Except Nat Nat) (fault : Option Nat) (db coll cid : String) :
    (Int × Option DBErr) × ClientHeap × Store :=
  match refOp st pingOk reconn with
  | (.error e, st1, _) => ((0, some (.connFail e)), st1, store)
  | (.ok p, st1, _) =>
    let r := findAndInc store (db, coll, cid) fault
    ((r.2.2, r.1), unRefOp st1 p, r.2.1)

/-- The index definition handed to `Indexes().CreateOne`. -/
structure IndexModel where
  keys : List (String × Int)
  unique : Bool
  sparse : Bool
deriving DecidableEq, Repr

/-- Embeds the private `ConnectionContext.ensureIndex`: acquire, build the
keys document (each field ascending), request creation of one sparse index
with the given uniqueness flag, release. The third component lists the
creation requests issued, tagged with the target (db, collection). -/
def ensureIndex (st : ClientHeap) (pingOk : Bool) (reconn : Except Nat Nat)
    (fault : Option Nat) (db coll : String) (key : List String) (unique : Bool) :
    Option DBErr × ClientHeap × List ((String × String) × IndexModel) :=
  match refOp st pingOk reconn with
  | (.error e, st1, _) => (some (.connFail e), st1, [])
  | (.ok p, st1, _) =>
    let m : IndexModel :=
      { keys := key.map (fun k => (k, 1)), unique := unique, sparse := true }
    ((match fault with | some e => some (.storeErr e) | none => none),
      unRefOp st1 p, [((db, coll), m)])

/-- Embeds `ConnectionContext.EnsureIndex` (non-unique). -/
def EnsureIndex (st : ClientHeap) (pingOk : Bool) (reconn : Except Nat Nat)
    (fault : Option Nat) (db coll : String) (key : List String) :
    Option DBErr × ClientHeap × List ((String × String) × IndexModel) :=
  ensureIndex st pingOk reconn fault db coll key false

/-- Embeds `ConnectionContext.EnsureUniqueIndex`. -/
def EnsureUniqueIndex (st : ClientHeap) (pingOk : Bool) (reconn : Except Nat Nat)
    (fault : Option Nat) (db coll : String) (key : List String) :
    Option DBErr × ClientHeap × List ((String × String) × IndexModel) :=
  ensureIndex st pingOk reconn fault db coll key true

theorem idxOK_swapH (h : ClientHeap) (i j : Nat)
    (hi : i < h.length) (hj : j < h.length) (hok : idxOK h) :
    idxOK (swapH h i j) := by
  intro m hm
  rw [length_swapH] at hm
  rw [idxAt_swapH h i j m hi hj]
  by_cases hmj : m = j
  · rw [if_pos hmj]; exact hmj.symm
  · rw [if_neg hmj]
    by_cases hmi : m = i
    · rw [if_pos hmi]; exact hmi.symm
    · rw [if_neg hmi]; exact hok m hm

theorem idxOK_downGo (fuel n : Nat) (h : ClientHeap) (i : Nat)
    (hn : n = h.length) (hok : idxOK h) : idxOK (downGo fuel n h i).1 := by
  induction fuel generalizing h i with
  | zero => exact hok
  | succ fuel ih =>
    unfold downGo
    dsimp only
    by_cases h2 : 2*i+1 < n
    · rw [if_pos h2]
      by_cases hswap : refAt h (pickChild h n i) < refAt h i
      · rw [if_pos hswap]
        have hj_n := pickChild_lt_n h n i h2
        apply ih
        · rw [length_swapH]; exact hn
        · exact idxOK_swapH h i _ (by omega) (by omega) hok
      · rw [if_neg hswap]; exact hok
    · rw [if_neg h2]; exact hok

theorem idxOK_upGo (fuel : Nat) (h : ClientHeap) (j : Nat)
    (hj : j < h.length) (hok : idxOK h) : idxOK (upGo fuel h j).1 := by
  induction fuel generalizing h j with
  | zero => exact hok
  | succ fuel ih =>
    unfold upGo
    by_cases hstop : (j-1)/2 = j ∨ ¬ refAt h j < refAt h ((j-1)/2)
    · rw [if_pos hstop]; exact hok
    · rw [if_neg hstop]
      have h0 : 0 < j := by
        by_contra hc
        exact hstop (Or.inl (by omega))
      apply ih
      · rw [length_swapH]; omega
      · exact idxOK_swapH h _ j (by omega) hj hok

theorem idxOK_fixH (h : ClientHeap) (k : Nat)
    (hk : k < h.length) (hok : idxOK h) : idxOK (fixH h k).1 := by
  unfold fixH
  dsimp only
  split
  · exact idxOK_downGo _ _ h k rfl hok
  · apply idxOK_upGo
    · rw [length_downGo]; exact hk
    · exact idxOK_downGo _ _ h k rfl hok

theorem idxOK_initAux (n k : Nat) (h : ClientHeap)
    (hn : n = h.length) (hok : idxOK h) : idxOK (initAux n k h) := by
  induction k generalizing h with
  | zero => exact hok
  | succ k ih =>
    unfold initAux
    apply ih
    · rw [length_downGo]; exact hn
    · exact idxOK_downGo _ _ h k hn hok

/-- Pointwise predicates on `ref` values survive all the heap shuffling
(swaps only move values around). -/
theorem allP_swapH (P : Int → Prop) (h : ClientHeap) (i j : Nat)
    (hi : i < h.length) (hj : j < h.length)
    (hall : ∀ m, m < h.length → P (refAt h m)) :
    ∀ m, m < (swapH h i j).length → P (refAt (swapH h i j) m) := by
  intro m hm
  rw [length_swapH] at hm
  rw [refAt_swapH h i j m hi hj]
  by_cases hmj : m = j
  · simp only [hmj, if_pos rfl]; exact hall i hi
  · rw [if_neg hmj]
    by_cases hmi : m = i
    · rw [if_pos hmi]; exact hall j hj
    · rw [if_neg hmi]; exact hall m hm

theorem allP_downGo (P : Int → Prop) (fuel n : Nat) (h : ClientHeap) (i : Nat)
    (hn : n = h.length) (hall : ∀ m, m < h.length → P (refAt h m)) :
    ∀ m, m < (downGo fuel n h i).1.length → P (refAt (downGo fuel n h i).1 m) := by
  induction fuel generalizing h i with
  | zero => exact hall
  | succ fuel ih =>
    unfold downGo
    dsimp only
    by_cases h2 : 2*i+1 < n
    · rw [if_pos h2]
      by_cases hswap : refAt h (pickChild h n i) < refAt h i
      · rw [if_pos hswap]
        have hj_n := pickChild_lt_n h n i h2
        apply ih
        · rw [length_swapH]; exact hn
        · exact allP_swapH P h i _ (by omega) (by omega) hall
      · rw [if_neg hswap]; exact hall
    · rw [if_neg h2]; exact hall

theorem allP_upGo (P : Int → Prop) (fuel : Nat) (h : ClientHeap) (j : Nat)
    (hj : j < h.length) (hall : ∀ m, m < h.length → P (refAt h m)) :
    ∀ m, m < (upGo fuel h j).1.length → P (refAt (upGo fuel h j).1 m) := by
  induction fuel generalizing h j with
  | zero => exact hall
  | succ fuel ih =>
    unfold upGo
    by_cases hstop : (j-1)/2 = j ∨ ¬ refAt h j < refAt h ((j-1)/2)
    · rw [if_pos hstop]; exact hall
    · rw [if_neg hstop]
      have h0 : 0 < j := by
        by_contra hc
        exact hstop (Or.inl (by omega))
      apply ih
      · rw [length_swapH]; omega
      · exact allP_swapH P h _ j (by omega) hj hall

theorem allP_fixH (P : Int → Prop) (h : ClientHeap) (k : Nat)
    (hk : k < h.length) (hall : ∀ m, m < h.length → P (refAt h m)) :
    ∀ m, m < (fixH h k).1.length → P (refAt (fixH h k).1 m) := by
  unfold fixH
  dsimp only
  split
  · exact allP_downGo P _ _ h k rfl hall
  · apply allP_upGo
    · rw [length_downGo]; exact hk
    · exact allP_downGo P _ _ h k rfl hall

theorem allP_initAux (P : Int → Prop) (n k : Nat) (h : ClientHeap)
    (hn : n = h.length) (hall : ∀ m, m < h.length → P (refAt h m)) :
    ∀ m, m < (initAux n k h).length → P (refAt (initAux n k h) m) := by
  induction k generalizing h with
  | zero => exact hall
  | succ k ih =>
    unfold initAux
    apply ih
    · rw [length_downGo]; exact hn
    · exact allP_downGo P _ _ h k hn hall

theorem isHeap_congr (h1 h2 : ClientHeap) (hlen : h1.length = h2.length)
    (hr : ∀ m, refAt h1 m = refAt h2 m) (hh : isHeap h1) : isHeap h2 := by
  intro c hc0 hcn
  rw [← hr, ← hr]
  exact hh c hc0 (by omega)

theorem idxOK_congr (h1 h2 : ClientHeap) (hlen : h1.length = h2.length)
    (hr : ∀ m, idxAt h1 m = idxAt h2 m) (hok : idxOK h1) : idxOK h2 := by
  intro m hm
  rw [← hr]
  exact hok m (by omega)

theorem refAt_set_conn (st : ClientHeap) (nc : Nat) (m : Nat) :
    refAt (st.set 0 { st.getD 0 default with conn := nc }) m = refAt st m := by
  cases st with
  | nil => rfl
  | cons a t =>
    have h0 : (0:Nat) < (a :: t).length := by simp
    rw [refAt_set _ _ _ _ h0]
    by_cases hm : m = 0
    · subst hm; simp [refAt]
    · simp [hm]

theorem idxAt_set_conn (st : ClientHeap) (nc : Nat) (m : Nat) :
    idxAt (st.set 0 { st.getD 0 default with conn := nc }) m = idxAt st m := by
  cases st with
  | nil => rfl
  | cons a t =>
    have h0 : (0:Nat) < (a :: t).length := by simp
    rw [idxAt_set _ _ _ _ h0]
    by_cases hm : m = 0
    · subst hm; simp [idxAt]
    · simp [hm]

/-- `Ref` either fails — only possible with an idle root, failed probe and
failed reconnect, with the state returned untouched — or reaches the common
increment-and-fix tail on a state whose `ref`/`index` data equal the input's. -/
theorem refOp_shape (st : ClientHeap) (pingOk : Bool) (reconn : Except Nat Nat) :
    (∃ e, pingOk = false ∧ reconn = .error e ∧
       refOp st pingOk reconn =
         (.error e, st, [Ev.ping (connAt st 0), Ev.disc (connAt st 0), Ev.connAtt])) ∨
    (∃ st1 evs, refOp st pingOk reconn = refDone st1 evs ∧
       st1.length = st.length ∧ (∀ m, refAt st1 m = refAt st m) ∧
       (∀ m, idxAt st1 m = idxAt st m)) := by
  unfold refOp
  dsimp only
  by_cases h0 : (st.getD 0 default).ref = 0
  · rw [if_pos h0]
    cases pingOk with
    | true =>
      right
      exact ⟨st, [Ev.ping (st.getD 0 default).conn], rfl, rfl,
        fun m => rfl, fun m => rfl⟩
    | false =>
      cases reconn with
      | ok nc =>
        right
        exact ⟨st.set 0 { st.getD 0 default with conn := nc },
          [Ev.ping (st.getD 0 default).conn, Ev.disc (st.getD 0 default).conn, Ev.connAtt],
          rfl, by simp, refAt_set_conn st nc, idxAt_set_conn st nc⟩
      | error e =>
        left
        exact ⟨e, rfl, rfl, rfl⟩
  · rw [if_neg h0]
    right
    exact ⟨st, [], rfl, rfl, fun m => rfl, fun m => rfl⟩

/-- The pool invariant: non-empty, valid heap order, valid back-pointers. -/
def poolInv (st : ClientHeap) : Prop :=
  0 < st.length ∧ isHeap st ∧ idxOK st

/-- Mutating one slot (keeping its back-pointer) and fixing there preserves
the pool invariant; the shared tail of `Ref` and `UnRef`. -/
theorem poolInv_set_fix (st : ClientHeap) (p : Nat) (c : Client)
    (hp : p < st.length) (hcidx : c.index = p) (hinv : poolInv st) :
    poolInv (fixH (st.set p c) p).1 ∧ (fixH (st.set p c) p).1.length = st.length := by
  obtain ⟨hlen, hh, hok⟩ := hinv
  have hlen2 : (st.set p c).length = st.length := by simp
  have hsame : ∀ m, m ≠ p → refAt (st.set p c) m = refAt st m := by
    intro m hm
    rw [refAt_set _ _ _ _ hp, if_neg hm]
  have hokset : idxOK (st.set p c) := by
    intro m hm
    rw [hlen2] at hm
    rw [idxAt_set _ _ _ _ hp]
    by_cases hmp : m = p
    · subst hmp; rw [if_pos rfl]; exact hcidx
    · rw [if_neg hmp]; exact hok m hm
  refine ⟨⟨?_, ?_, ?_⟩, ?_⟩
  · rw [length_fixH, hlen2]; exact hlen
  · exact isHeap_fixH st _ p (by rw [hlen2]) hp hsame hh
  · exact idxOK_fixH _ p (by rw [hlen2]; exact hp) hokset
  · rw [length_fixH, hlen2]

theorem poolInv_refDone (st1 : ClientHeap) (evs : List Ev)
    (hinv : poolInv st1) :
    poolInv (refDone st1 evs).2.1 ∧ (refDone st1 evs).2.1.length = st1.length := by
  have hlen := hinv.1
  have hok := hinv.2.2
  unfold refDone
  dsimp only
  exact poolInv_set_fix st1 0 _ hlen (hok 0 hlen) hinv

theorem poolInv_refOp (st : ClientHeap) (pingOk : Bool) (reconn : Except Nat Nat)
    (hinv : poolInv st) :
    poolInv (refOp st pingOk reconn).2.1 ∧
      (refOp st pingOk reconn).2.1.length = st.length := by
  rcases refOp_shape st pingOk reconn with ⟨e, _, _, heq⟩ | ⟨st1, evs, heq, hlen1, hrefs, hidxs⟩
  · rw [heq]; exact ⟨hinv, rfl⟩
  · rw [heq]
    have hinv1 : poolInv st1 := by
      obtain ⟨hlen, hh, hok⟩ := hinv
      refine ⟨by omega, ?_, ?_⟩
      · exact isHeap_congr st st1 hlen1.symm (fun m => (hrefs m).symm) hh
      · exact idxOK_congr st st1 hlen1.symm (fun m => (hidxs m).symm) hok
    have h := poolInv_refDone st1 evs hinv1
    exact ⟨h.1, by rw [h.2, hlen1]⟩

theorem unRefOp_eq (st : ClientHeap) (p : Nat)
    (hidx : (st.getD p default).index = p) :
    unRefOp st p =
      (fixH (st.set p
        { conn := (st.getD p default).conn,
          ref := (st.getD p default).ref - 1,
          index := p }) p).1 := by
  unfold unRefOp
  dsimp only
  rw [hidx]

theorem poolInv_unRefOp (st : ClientHeap) (p : Nat)
    (hp : p < st.length) (hinv : poolInv st) :
    poolInv (unRefOp st p) ∧ (unRefOp st p).length = st.length := by
  have hok := hinv.2.2
  rw [unRefOp_eq st p (hok p hp)]
  exact poolInv_set_fix st p _ hp rfl hinv

theorem poolInv_stepOp (st : ClientHeap) (op : PoolOp) (hinv : poolInv st) :
    poolInv (stepOp st op) ∧ (stepOp st op).length = st.length := by
  cases op with
  | acq pingOk reconn => exact poolInv_refOp st pingOk reconn hinv
  | rel p =>
    have hstep : stepOp st (PoolOp.rel p) =
        if p < st.length then unRefOp st p else st := rfl
    rw [hstep]
    by_cases hp : p < st.length
    · rw [if_pos hp]; exact poolInv_unRefOp st p hp hinv
    · rw [if_neg hp]; exact ⟨hinv, rfl⟩

theorem poolInv_run (st : ClientHeap) (ops : List PoolOp) (hinv : poolInv st) :
    poolInv (run st ops) := by
  induction ops generalizing st with
  | nil => exact hinv
  | cons op ops ih =>
    exact ih (stepOp st op) (poolInv_stepOp st op hinv).1

theorem isHeap_root_min (h : ClientHeap) (hh : isHeap h) :
    ∀ j, j < h.length → refAt h 0 ≤ refAt h j := by
  intro j
  induction j using Nat.strong_induction_on with
  | _ j ih =>
    intro hj
    cases Nat.eq_zero_or_pos j with
    | inl h0 => subst h0; exact le_refl _
    | inr h0 =>
      have hp := hh j h0 hj
      have := ih ((j-1)/2) (by omega) (by omega)
      omega

theorem effN_pos (cn : Int) : 0 < effN cn := by
  unfold effN
  split
  · omega
  · omega

theorem refAt_append_lt (l1 l2 : ClientHeap) (m : Nat) (hm : m < l1.length) :
    refAt (l1 ++ l2) m = refAt l1 m := by
  unfold refAt
  rw [List.getD_eq_getElem?_getD, List.getD_eq_getElem?_getD,
    List.getElem?_append_left hm]

theorem idxAt_append_lt (l1 l2 : ClientHeap) (m : Nat) (hm : m < l1.length) :
    idxAt (l1 ++ l2) m = idxAt l1 m := by
  unfold idxAt
  rw [List.getD_eq_getElem?_getD, List.getD_eq_getElem?_getD,
    List.getElem?_append_left hm]

theorem getD_append_last (l1 : ClientHeap) (x : Client) :
    (l1 ++ [x]).getD l1.length default = x := by
  rw [List.getD_eq_getElem?_getD, List.getElem?_append_right (le_refl _)]
  simp

/-- The pool contents produced by the connect loop: a success returns exactly
`acc.length + k` clients, all with `ref = 0` and `index` equal to their slot. -/
theorem buildClients_ok (connect : Nat → Except Nat Nat) (k : Nat) :
    ∀ i acc, i = acc.length →
      (∀ m, m < acc.length → refAt acc m = 0 ∧ idxAt acc m = m) →
      ∀ l, buildClients connect k i acc = .ok l →
        l.length = acc.length + k ∧
        (∀ m, m < l.length → refAt l m = 0 ∧ idxAt l m = m) := by
  induction k with
  | zero =>
    intro i acc hi hacc l hl
    unfold buildClients at hl
    cases hl
    exact ⟨by omega, hacc⟩
  | succ k ih =>
    intro i acc hi hacc l hl
    unfold buildClients at hl
    cases hc : connect i with
    | error e => rw [hc] at hl; cases hl
    | ok c =>
      rw [hc] at hl
      have hacc2 : ∀ m, m < (acc ++ [({ conn := c, ref := 0, index := i } : Client)]).length →
          refAt (acc ++ [({ conn := c, ref := 0, index := i } : Client)]) m = 0 ∧
            idxAt (acc ++ [({ conn := c, ref := 0, index := i } : Client)]) m = m := by
        intro m hm
        simp only [List.length_append, List.length_cons, List.length_nil] at hm
        by_cases hma : m < acc.length
        · rw [refAt_append_lt _ _ _ hma, idxAt_append_lt _ _ _ hma]
          exact hacc m hma
        · have hmeq : m = acc.length := by omega
          subst hmeq
          constructor
          · unfold refAt; rw [getD_append_last]
          · unfold idxAt; rw [getD_append_last]
            exact hi
      have hrec := ih (i+1) (acc ++ [({ conn := c, ref := 0, index := i } : Client)])
        (by simp; omega) hacc2 l hl
      obtain ⟨hl1, hl2⟩ := hrec
      constructor
      · simp only [List.length_append, List.length_cons, List.length_nil] at hl1
        omega
      · exact hl2

theorem buildClients_ok_len (connect : Nat → Except Nat Nat) (k : Nat) :
    ∀ i acc l, buildClients connect k i acc = .ok l → l.length = acc.length + k := by
  induction k with
  | zero =>
    intro i acc l hl
    unfold buildClients at hl
    cases hl
    omega
  | succ k ih =>
    intro i acc l hl
    unfold buildClients at hl
    cases hc : connect i with
    | error e => rw [hc] at hl; cases hl
    | ok c =>
      rw [hc] at hl
      have := ih (i+1) _ l hl
      simp only [List.length_append, List.length_cons, List.length_nil] at this
      omega

/-- The connect loop stops at the first failing dial and returns its error. -/
theorem buildClients_error (connect : Nat → Except Nat Nat) (j : Nat) :
    ∀ k i acc e, j < k →
      (∀ m, m < j → ∃ c, connect (i + m) = .ok c) →
      connect (i + j) = .error e →
      buildClients connect k i acc = .error e := by
  induction j with
  | zero =>
    intro k i acc e hjk hok herr
    cases k with
    | zero => omega
    | succ k =>
      unfold buildClients
      rw [show i + 0 = i from rfl] at herr
      rw [herr]
  | succ j ih =>
    intro k i acc e hjk hok herr
    cases k with
    | zero => omega
    | succ k =>
      unfold buildClients
      obtain ⟨c, hc⟩ := hok 0 (by omega)
      rw [show i + 0 = i from rfl] at hc
      rw [hc]
      apply ih k (i+1) _ e (by omega)
      · intro m hm
        obtain ⟨c', hc'⟩ := hok (m+1) (by omega)
        exact ⟨c', by rw [show i + 1 + m = i + (m + 1) from by omega]; exact hc'⟩
      · rw [show i + 1 + j = i + (j + 1) from by omega]
        exact herr

/-- A successfully built pool satisfies the invariant, has exactly the
requested size, and starts with all use counts zero. -/
theorem mkPool_ok (cn : Int) (connect : Nat → Except Nat Nat) (st0 : ClientHeap)
    (h : mkPool cn connect = .ok st0) :
    poolInv st0 ∧ st0.length = effN cn ∧
      (∀ m, m < st0.length → refAt st0 m = 0) := by
  unfold mkPool at h
  cases hb : buildClients connect (effN cn) 0 [] with
  | error e => rw [hb] at h; cases h
  | ok cls =>
    rw [hb] at h
    cases h
    have hfacts := buildClients_ok connect (effN cn) 0 [] rfl (by intro m hm; simp at hm) cls hb
    have hlen : cls.length = effN cn := by
      have := hfacts.1
      simpa using this
    have hzero : ∀ m, m < (initH cls).length → refAt (initH cls) m = 0 := by
      unfold initH
      exact allP_initAux (fun x => x = 0) cls.length (cls.length / 2) cls rfl
        (fun m hm => (hfacts.2 m hm).1)
    have hidx : idxOK (initH cls) := by
      unfold initH
      exact idxOK_initAux cls.length (cls.length / 2) cls rfl
        (fun m hm => (hfacts.2 m hm).2)
    have hlen2 : (initH cls).length = effN cn := by
      rw [length_initH, hlen]
    refine ⟨⟨?_, ?_, ?_⟩, hlen2, hzero⟩
    · rw [hlen2]; exact effN_pos cn
    · intro c hc0 hcn
      rw [hzero c hcn, hzero ((c-1)/2) (by omega)]
    · exact hidx

/-- Recognizes a disconnect event. -/
def isDisc : Ev → Bool
  | .disc _ => true
  | _ => false

theorem closeOp_disc_count (st : ClientHeap) :
    (closeOp st).countP isDisc = st.length := by
  induction st with
  | nil => rfl
  | cons s rest ih =>
    unfold closeOp
    rw [List.countP_cons, List.countP_append, ih]
    have hlog : List.countP isDisc (if s.ref ≠ 0 then [Ev.log s.ref] else []) = 0 := by
      split
      · rfl
      · rfl
    rw [hlog]
    simp [isDisc]

theorem closeOp_disc_mem (st : ClientHeap) :
    ∀ i, i < st.length → Ev.disc (connAt st i) ∈ closeOp st := by
  induction st with
  | nil => intro i hi; simp at hi
  | cons s rest ih =>
    intro i hi
    unfold closeOp
    cases i with
    | zero =>
      apply List.mem_cons_self
    | succ i =>
      apply List.mem_cons_of_mem
      apply List.mem_append_right
      have : connAt (s :: rest) (i+1) = connAt rest i := by
        unfold connAt
        rw [List.getD_cons_succ]
      rw [this]
      exact ih i (by simpa using hi)

theorem closeOp_log_iff (st : ClientHeap) (r : Int) :
    Ev.log r ∈ closeOp st ↔ r ≠ 0 ∧ ∃ i, i < st.length ∧ refAt st i = r := by
  induction st with
  | nil => simp [closeOp]
  | cons s rest ih =>
    unfold closeOp
    simp only [List.mem_cons, List.mem_append]
    constructor
    · rintro (heq | hin | hin)
      · exact absurd heq (by simp)
      · by_cases hs : s.ref ≠ 0
        · rw [if_pos hs] at hin
          simp only [List.mem_singleton, Ev.log.injEq] at hin
          refine ⟨by omega, 0, by simp, ?_⟩
          show refAt (s :: rest) 0 = r
          unfold refAt
          rw [List.getD_cons_zero]
          omega
        · rw [if_neg hs] at hin
          simp at hin
      · obtain ⟨hr, i, hi, href⟩ := ih.mp hin
        refine ⟨hr, i+1, by simpa using hi, ?_⟩
        unfold refAt at href ⊢
        rwa [List.getD_cons_succ]
    · rintro ⟨hr, i, hi, href⟩
      cases i with
      | zero =>
        right; left
        have hs : s.ref = r := by
          unfold refAt at href
          rwa [List.getD_cons_zero] at href
        rw [if_pos (by omega : s.ref ≠ 0)]
        simp [hs]
      | succ i =>
        right; right
        apply ih.mpr
        refine ⟨hr, i, by simpa using hi, ?_⟩
        unfold refAt at href ⊢
        rwa [List.getD_cons_succ] at href

theorem lookupSeq_append_self (store : Store) (k : CKey) (v : Int)
    (h : lookupSeq store k = none) : lookupSeq (store ++ [(k, v)]) k = some v := by
  induction store with
  | nil => simp [lookupSeq]
  | cons kv rest ih =>
    rw [List.cons_append]
    unfold lookupSeq at h ⊢
    by_cases hk : kv.1 = k
    · rw [if_pos hk] at h; cases h
    · rw [if_neg hk] at h ⊢
      exact ih h

theorem lookupSeq_setSeq (store : Store) (k : CKey) (v w : Int)
    (h : lookupSeq store k = some w) :
    lookupSeq (setSeq store k v) k = some v := by
  induction store with
  | nil => cases h
  | cons kv rest ih =>
    unfold setSeq at ih ⊢
    rw [List.map_cons]
    unfold lookupSeq at h ⊢
    by_cases hk : kv.1 = k
    · rw [if_pos hk]
      rw [if_pos hk]
    · rw [if_neg hk] at h
      rw [if_neg hk]
      rw [if_neg hk]
      exact ih h

/-- With a live root connection (`Ping` succeeds) or a busy root, `Ref`
cannot fail; in particular `pingOk = true` forces a successful acquire. -/
theorem refOp_some_of_ping (st : ClientHeap) (reconn : Except Nat Nat) :
    ∃ p st1 evs, refOp st true reconn = (.ok p, st1, evs) := by
  rcases refOp_shape st true reconn with ⟨e, hping, _, _⟩ | ⟨st1, evs, heq, _, _, _⟩
  · cases hping
  · exact ⟨_, _, _, by rw [heq]; rfl⟩

theorem nonneg_refOp (st : ClientHeap) (pingOk : Bool) (reconn : Except Nat Nat)
    (hinv : poolInv st) (hall : ∀ m, m < st.length → 0 ≤ refAt st m) :
    ∀ m, m < (refOp st pingOk reconn).2.1.length →
      0 ≤ refAt (refOp st pingOk reconn).2.1 m := by
  rcases refOp_shape st pingOk reconn with ⟨e, _, _, heq⟩ | ⟨st1, evs, heq, hlen1, hrefs, hidxs⟩
  · rw [heq]; exact hall
  · rw [heq]
    unfold refDone
    dsimp only
    have hlen0 : 0 < st1.length := by rw [hlen1]; exact hinv.1
    have hall1 : ∀ m, m < st1.length → 0 ≤ refAt st1 m := by
      intro m hm
      rw [hrefs m]
      exact hall m (by omega)
    apply allP_fixH (fun x => 0 ≤ x)
    · simpa using hlen0
    · intro m hm
      simp only [List.length_set] at hm
      rw [refAt_set _ _ _ _ hlen0]
      by_cases hm0 : m = 0
      · rw [if_pos hm0]
        show (0:Int) ≤ (st1.getD 0 default).ref + 1
        have h00 : refAt st1 0 = (st1.getD 0 default).ref := rfl
        have := hall1 0 hlen0
        omega
      · rw [if_neg hm0]
        exact hall1 m hm

theorem nonneg_unRefOp (st : ClientHeap) (p : Nat)
    (hinv : poolInv st) (hp : p < st.length) (hpos : 0 < refAt st p)
    (hall : ∀ m, m < st.length → 0 ≤ refAt st m) :
    ∀ m, m < (unRefOp st p).length → 0 ≤ refAt (unRefOp st p) m := by
  rw [unRefOp_eq st p (hinv.2.2 p hp)]
  apply allP_fixH (fun x => 0 ≤ x)
  · simpa using hp
  · intro m hm
    simp only [List.length_set] at hm
    rw [refAt_set _ _ _ _ hp]
    by_cases hmp : m = p
    · rw [if_pos hmp]
      show (0:Int) ≤ (st.getD p default).ref - 1
      have h00 : refAt st p = (st.getD p default).ref := rfl
      omega
    · rw [if_neg hmp]
      exact hall m hm

theorem runCk_nonneg (ops : List PoolOp) :
    ∀ st st', poolInv st → (∀ m, m < st.length → 0 ≤ refAt st m) →
      runCk st ops = some st' →
      ∀ m, m < st'.length → 0 ≤ refAt st' m := by
  induction ops with
  | nil =>
    intro st st' hinv hall h
    simp only [runCk] at h
    cases h
    exact hall
  | cons op ops ih =>
    intro st st' hinv hall h
    cases op with
    | acq pingOk reconn =>
      simp only [runCk] at h
      have hstep : stepOp st (PoolOp.acq pingOk reconn) = (refOp st pingOk reconn).2.1 := rfl
      refine ih (stepOp st (PoolOp.acq pingOk reconn)) st'
        (poolInv_stepOp st (PoolOp.acq pingOk reconn) hinv).1 ?_ h
      rw [hstep]
      exact nonneg_refOp st pingOk reconn hinv hall
    | rel p =>
      simp only [runCk] at h
      by_cases hc : p < st.length ∧ 0 < refAt st p
      · rw [if_pos hc] at h
        have hstep : stepOp st (PoolOp.rel p) = unRefOp st p := by
          show (if p < st.length then unRefOp st p else st) = unRefOp st p
          rw [if_pos hc.1]
        refine ih _ st' (poolInv_stepOp st _ hinv).1 ?_ h
        rw [hstep]
        exact nonneg_unRefOp st p hinv hc.1 hc.2 hall
      · rw [if_neg hc] at h
        cases h

theorem EnsureCounter_fault (st : ClientHeap) (store : Store)
    (reconn : Except Nat Nat) (e : Nat) (db coll cid : String) :
    (EnsureCounter st store true reconn (some e) db coll cid).1 =
      some (DBErr.storeErr e) ∧
    (EnsureCounter st store true reconn (some e) db coll cid).2.2 = store := by
  obtain ⟨p, st1, evs, heq⟩ := refOp_some_of_ping st reconn
  unfold EnsureCounter
  rw [heq]
  exact ⟨rfl, rfl⟩

theorem EnsureCounter_fresh (st : ClientHeap) (store : Store)
    (reconn : Except Nat Nat) (db coll cid : String)
    (hlk : lookupSeq store (db, coll, cid) = none) :
    (EnsureCounter st store true reconn none db coll cid).1 = none ∧
    (EnsureCounter st store true reconn none db coll cid).2.2 =
      store ++ [((db, coll, cid), 0)] := by
  obtain ⟨p, st1, evs, heq⟩ := refOp_some_of_ping st reconn
  unfold EnsureCounter
  rw [heq]
  dsimp only
  unfold insertOne
  rw [hlk]
  simp only [Option.isSome_none, Bool.false_eq_true, if_false]
  exact ⟨by trivial, by trivial⟩

theorem EnsureCounter_dup (st : ClientHeap) (store : Store)
    (reconn : Except Nat Nat) (db coll cid : String) (v : Int)
    (hlk : lookupSeq store (db, coll, cid) = some v) :
    (EnsureCounter st store true reconn none db coll cid).1 = none ∧
    (EnsureCounter st store true reconn none db coll cid).2.2 = store := by
  obtain ⟨p, st1, evs, heq⟩ := refOp_some_of_ping st reconn
  unfold EnsureCounter
  rw [heq]
  dsimp only
  unfold insertOne
  rw [hlk]
  simp only [Option.isSome_some, if_true]
  exact ⟨by trivial, by trivial⟩

theorem NextSeq_found (st : ClientHeap) (store : Store)
    (reconn : Except Nat Nat) (db coll cid : String) (v : Int)
    (hlk : lookupSeq store (db, coll, cid) = some v) :
    (NextSeq st store true reconn none db coll cid).1 = (v + 1, none) ∧
    (NextSeq st store true reconn none db coll cid).2.2 =
      setSeq store (db, coll, cid) (v + 1) := by
  obtain ⟨p, st1, evs, heq⟩ := refOp_some_of_ping st reconn
  unfold NextSeq
  rw [heq]
  dsimp only
  unfold findAndInc
  rw [hlk]
  exact ⟨rfl, rfl⟩

theorem NextSeq_absent (st : ClientHeap) (store : Store)
    (reconn : Except Nat Nat) (db coll cid : String)
    (hlk : lookupSeq store (db, coll, cid) = none) :
    (NextSeq st store true reconn none db coll cid).1 =
      (0, some DBErr.noDocuments) ∧
    (NextSeq st store true reconn none db coll cid).2.2 = store := by
  obtain ⟨p, st1, evs, heq⟩ := refOp_some_of_ping st reconn
  unfold NextSeq
  rw [heq]
  dsimp only
  unfold findAndInc
  rw [hlk]
  exact ⟨rfl, rfl⟩

/-- C1: for every pool and every finite sequence of acquire (`Ref`) and
release (`UnRef`) calls starting from a freshly constructed pool, the client
at heap index 0 has a use count ≤ the use count of every other client. -/
theorem leaf_C1 (cn : Int) (connect : Nat → Except Nat Nat) (st0 : ClientHeap)
    (ops : List PoolOp) (h0 : mkPool cn connect = .ok st0) :
    ∀ j, j < (run st0 ops).length →
      refAt (run st0 ops) 0 ≤ refAt (run st0 ops) j := by
  have hinv := (mkPool_ok cn connect st0 h0).1
  have hrun := poolInv_run st0 ops hinv
  exact isHeap_root_min _ hrun.2.1

theorem leaf_C1_witness :
    mkPool 2 (fun _ => Except.ok 0) = Except.ok [⟨0, 0, 0⟩, ⟨0, 0, 1⟩] ∧
    refAt (run [⟨0, 0, 0⟩, ⟨0, 0, 1⟩]
        [PoolOp.acq true (Except.ok 0), PoolOp.rel 1]) 0 ≤
      refAt (run [⟨0, 0, 0⟩, ⟨0, 0, 1⟩]
        [PoolOp.acq true (Except.ok 0), PoolOp.rel 1]) 1 :=
  ⟨rfl, leaf_C1 2 (fun _ => Except.ok 0) [⟨0, 0, 0⟩, ⟨0, 0, 1⟩]
    [PoolOp.acq true (Except.ok 0), PoolOp.rel 1] rfl 1 (by decide)⟩

/-- C2: if the minimum-use client is idle (`ref = 0`), its liveness probe
fails and reconnection also fails with error `e`, then `Ref` returns that
error and leaves every client's `ref` and heap position exactly as before. -/
theorem leaf_C2 (st : ClientHeap) (e : Nat) (h0 : refAt st 0 = 0) :
    (refOp st false (.error e)).1 = Except.error e ∧
    (refOp st false (.error e)).2.1 = st ∧
    (∀ i, refAt (refOp st false (.error e)).2.1 i = refAt st i ∧
      idxAt (refOp st false (.error e)).2.1 i = idxAt st i) := by
  have h0' : (st.getD 0 default).ref = 0 := h0
  have heq : refOp st false (.error e) =
      (.error e, st,
        [Ev.ping (connAt st 0), Ev.disc (connAt st 0), Ev.connAtt]) := by
    unfold refOp
    dsimp only
    rw [if_pos h0']
    rfl
  rw [heq]
  exact ⟨rfl, rfl, fun i => ⟨rfl, rfl⟩⟩

theorem leaf_C2_witness :
    refAt [(⟨7, 0, 0⟩ : Client)] 0 = 0 ∧
    (refOp [(⟨7, 0, 0⟩ : Client)] false (.error 4)).1 = Except.error 4 ∧
    (refOp [(⟨7, 0, 0⟩ : Client)] false (.error 4)).2.1 = [(⟨7, 0, 0⟩ : Client)] :=
  ⟨rfl, (leaf_C2 [⟨7, 0, 0⟩] 4 rfl).1, (leaf_C2 [⟨7, 0, 0⟩] 4 rfl).2.1⟩

/-- C3 counterexample: a single `UnRef` without a prior acquire on a freshly
constructed one-client pool drives that client's `ref` to `-1`, refuting
"no client's ref count ever becomes negative" for unmatched releases. -/
theorem leaf_C3_counterexample :
    mkPool 1 (fun _ => Except.ok 0) = Except.ok [⟨0, 0, 0⟩] ∧
    refAt (run [⟨0, 0, 0⟩] [PoolOp.rel 0]) 0 = -1 :=
  ⟨rfl, by decide⟩

/-- C3 (amended): as long as every `UnRef` targets a client whose `ref` is
positive — i.e. has a matching outstanding acquire — no client's ref count
ever becomes negative. -/
theorem leaf_C3 (cn : Int) (connect : Nat → Except Nat Nat)
    (st0 st' : ClientHeap) (ops : List PoolOp)
    (h0 : mkPool cn connect = .ok st0) (hck : runCk st0 ops = some st') :
    ∀ i, i < st'.length → 0 ≤ refAt st' i := by
  obtain ⟨hinv, hlen, hzero⟩ := mkPool_ok cn connect st0 h0
  exact runCk_nonneg ops st0 st' hinv
    (fun m hm => le_of_eq (hzero m hm).symm) hck

theorem leaf_C3_witness :
    mkPool 1 (fun _ => Except.ok 0) = Except.ok [⟨0, 0, 0⟩] ∧
    runCk [⟨0, 0, 0⟩] [PoolOp.acq true (Except.ok 0), PoolOp.rel 0] =
      some [⟨0, 0, 0⟩] ∧
    0 ≤ refAt [⟨0, 0, 0⟩] 0 :=
  ⟨rfl, by decide,
    leaf_C3 1 (fun _ => Except.ok 0) [⟨0, 0, 0⟩] [⟨0, 0, 0⟩]
      [PoolOp.acq true (Except.ok 0), PoolOp.rel 0] rfl (by decide) 0 (by decide)⟩

/-- C4: `Ref` probes liveness exactly when the selected minimum-use client is
idle (`ref = 0`); the reconnect is attempted exactly on probe failure; and a
busy client is returned after only the increment and the heap fix, with no
driver calls at all. -/
theorem leaf_C4 (st : ClientHeap) (pingOk : Bool) (reconn : Except Nat Nat) :
    (Ev.ping (connAt st 0) ∈ (refOp st pingOk reconn).2.2 ↔ refAt st 0 = 0) ∧
    (Ev.connAtt ∈ (refOp st pingOk reconn).2.2 ↔
      (refAt st 0 = 0 ∧ pingOk = false)) ∧
    (refAt st 0 ≠ 0 →
      refOp st pingOk reconn =
        (.ok (fixH (st.set 0 { st.getD 0 default with
            ref := (st.getD 0 default).ref + 1 }) 0).2,
         (fixH (st.set 0 { st.getD 0 default with
            ref := (st.getD 0 default).ref + 1 }) 0).1,
         ([] : List Ev))) := by
  by_cases h0 : (st.getD 0 default).ref = 0
  · have h0r : refAt st 0 = 0 := h0
    cases pingOk with
    | true =>
      have heq : refOp st true reconn =
          refDone st [Ev.ping (st.getD 0 default).conn] := by
        unfold refOp
        dsimp only
        rw [if_pos h0]
        rfl
      rw [heq]
      unfold refDone
      dsimp only
      refine ⟨?_, ?_, ?_⟩
      · simp [h0r, connAt]
      · simp [h0r]
      · intro hne; exact absurd h0r hne
    | false =>
      cases reconn with
      | error e =>
        have heq : refOp st false (.error e) =
            (.error e, st, [Ev.ping (st.getD 0 default).conn,
              Ev.disc (st.getD 0 default).conn, Ev.connAtt]) := by
          unfold refOp
          dsimp only
          rw [if_pos h0]
          rfl
        rw [heq]
        refine ⟨?_, ?_, ?_⟩
        · simp [h0r, connAt]
        · simp [h0r]
        · intro hne; exact absurd h0r hne
      | ok nc =>
        have heq : refOp st false (.ok nc) =
            refDone (st.set 0 { st.getD 0 default with conn := nc })
              [Ev.ping (st.getD 0 default).conn,
               Ev.disc (st.getD 0 default).conn, Ev.connAtt] := by
          unfold refOp
          dsimp only
          rw [if_pos h0]
          rfl
        rw [heq]
        unfold refDone
        dsimp only
        refine ⟨?_, ?_, ?_⟩
        · simp [h0r, connAt]
        · simp [h0r]
        · intro hne; exact absurd h0r hne
  · have h0r : refAt st 0 ≠ 0 := h0
    have heq : refOp st pingOk reconn = refDone st [] := by
      unfold refOp
      dsimp only
      rw [if_neg h0]
    rw [heq]
    unfold refDone
    dsimp only
    refine ⟨?_, ?_, ?_⟩
    · simp [h0r]
    · simp [h0r]
    · intro _; rfl

theorem leaf_C4_witness :
    refOp [(⟨3, 1, 0⟩ : Client)] true (Except.ok 5) =
      (Except.ok 0, [(⟨3, 2, 0⟩ : Client)], ([] : List Ev)) :=
  ((leaf_C4 [(⟨3, 1, 0⟩ : Client)] true (Except.ok 5)).2.2 (by decide)).trans
    (by decide)

/-- C5: if dialing connection `j` fails during construction (all earlier
dials having succeeded), `ConnectWithTimeout` aborts with that error and no
pool; a returned pool always has exactly the requested number of clients. -/
theorem leaf_C5 (cn : Int) (connect : Nat → Except Nat Nat) :
    (∀ j e, j < effN cn →
      (∀ m, m < j → ∃ c, connect m = Except.ok c) →
      connect j = Except.error e →
      mkPool cn connect = Except.error e) ∧
    (∀ st, mkPool cn connect = Except.ok st →
      st.length = effN cn ∧ 0 < st.length) := by
  constructor
  · intro j e hj hok herr
    unfold mkPool
    have hb := buildClients_error connect j (effN cn) 0 [] e hj
      (fun m hm => by simpa using hok m hm)
      (by simpa using herr)
    rw [hb]
  · intro st hst
    obtain ⟨hinv, hlen, _⟩ := mkPool_ok cn connect st hst
    exact ⟨hlen, hinv.1⟩

theorem leaf_C5_witness :
    mkPool 2 (fun i => if i = 0 then Except.ok 5 else Except.error 7) =
      Except.error 7 :=
  (leaf_C5 2 (fun i => if i = 0 then Except.ok 5 else Except.error 7)).1 1 7
    (by decide)
    (by
      intro m hm
      have hm0 : m = 0 := by omega
      subst hm0
      exact ⟨5, rfl⟩)
    rfl

/-- C6: whenever a client is inside the heap its stored `index` field equals
its actual slot, and every heap manipulation the pool performs — `Swap`
(hence `heap.Init`), `heap.Fix`, the `Ref`/`UnRef` steps, and any call
sequence from a fresh pool — preserves this correspondence. -/
theorem leaf_C6 :
    (∀ h i j, i < h.length → j < h.length → idxOK h → idxOK (swapH h i j)) ∧
    (∀ h k, k < h.length → idxOK h → idxOK (fixH h k).1) ∧
    (∀ h, idxOK h → idxOK (initH h)) ∧
    (∀ st op, poolInv st → idxOK (stepOp st op)) ∧
    (∀ cn connect st0 ops, mkPool cn connect = Except.ok st0 →
      idxOK (run st0 ops)) :=
  ⟨fun h i j hi hj hok => idxOK_swapH h i j hi hj hok,
   fun h k hk hok => idxOK_fixH h k hk hok,
   fun h hok => idxOK_initAux h.length (h.length / 2) h rfl hok,
   fun st op hinv => ((poolInv_stepOp st op hinv).1).2.2,
   fun cn connect st0 ops h =>
     (poolInv_run st0 ops (mkPool_ok cn connect st0 h).1).2.2⟩

theorem leaf_C6_witness :
    idxOK (swapH [(⟨4, 2, 0⟩ : Client), ⟨5, 3, 1⟩] 0 1) :=
  leaf_C6.1 [⟨4, 2, 0⟩, ⟨5, 3, 1⟩] 0 1 (by decide) (by decide)
    (by
      intro i hi
      have h2 : i < 2 := by simpa using hi
      interval_cases i <;> rfl)

/-- C7: with a successful acquire, `EnsureCounter` inserts `{_id, seq: 0}`;
it succeeds both when the insert succeeds and when it hits a duplicate key
(two consecutive calls with the same identity both succeed), and any other
insertion error is returned. -/
theorem leaf_C7 (st : ClientHeap) (store : Store)
    (reconn reconn2 : Except Nat Nat) (db coll cid : String) :
    (∀ e, (EnsureCounter st store true reconn (some e) db coll cid).1 =
        some (DBErr.storeErr e) ∧
      (EnsureCounter st store true reconn (some e) db coll cid).2.2 = store) ∧
    (lookupSeq store (db, coll, cid) = none →
      (EnsureCounter st store true reconn none db coll cid).1 = none ∧
      (EnsureCounter st store true reconn none db coll cid).2.2 =
        store ++ [((db, coll, cid), 0)]) ∧
    (∀ v, lookupSeq store (db, coll, cid) = some v →
      (EnsureCounter st store true reconn none db coll cid).1 = none ∧
      (EnsureCounter st store true reconn none db coll cid).2.2 = store) ∧
    ((EnsureCounter st store true reconn none db coll cid).1 = none ∧
      (EnsureCounter
        (EnsureCounter st store true reconn none db coll cid).2.1
        (EnsureCounter st store true reconn none db coll cid).2.2
        true reconn2 none db coll cid).1 = none) := by
  refine ⟨fun e => EnsureCounter_fault st store reconn e db coll cid,
    fun hlk => EnsureCounter_fresh st store reconn db coll cid hlk,
    fun v hlk => EnsureCounter_dup st store reconn db coll cid v hlk, ?_⟩
  cases hlk : lookupSeq store (db, coll, cid) with
  | none =>
    have h1 := EnsureCounter_fresh st store reconn db coll cid hlk
    refine ⟨h1.1, ?_⟩
    have hlk2 : lookupSeq (EnsureCounter st store true reconn none db coll cid).2.2
        (db, coll, cid) = some 0 := by
      rw [h1.2]
      exact lookupSeq_append_self store _ 0 hlk
    exact (EnsureCounter_dup _ _ reconn2 db coll cid 0 hlk2).1
  | some v =>
    have h1 := EnsureCounter_dup st store reconn db coll cid v hlk
    refine ⟨h1.1, ?_⟩
    have hlk2 : lookupSeq (EnsureCounter st store true reconn none db coll cid).2.2
        (db, coll, cid) = some v := by
      rw [h1.2]
      exact hlk
    exact (EnsureCounter_dup _ _ reconn2 db coll cid v hlk2).1

theorem leaf_C7_witness :
    lookupSeq [] ("d", "c", "i") = none ∧
    (EnsureCounter [(⟨0, 0, 0⟩ : Client)] [] true (Except.ok 0)
      none "d" "c" "i").1 = none ∧
    (EnsureCounter [(⟨0, 0, 0⟩ : Client)] [] true (Except.ok 0)
      none "d" "c" "i").2.2 = [(("d", "c", "i"), 0)] := by
  refine ⟨rfl, ?_, ?_⟩
  · exact ((leaf_C7 [(⟨0, 0, 0⟩ : Client)] [] (Except.ok 0) (Except.ok 0)
      "d" "c" "i").2.1 rfl).1
  · have h := ((leaf_C7 [(⟨0, 0, 0⟩ : Client)] [] (Except.ok 0) (Except.ok 0)
      "d" "c" "i").2.1 rfl).2
    simpa using h

/-- C8: with a successful acquire, `NextSeq` atomically bumps the counter's
`seq` and returns the post-increment value — so a counter seeded at 0 yields
1, 2, 3 over three consecutive calls — and errors with `ErrNoDocuments` when
the record does not exist. -/
theorem leaf_C8 (st : ClientHeap) (store : Store) (reconn : Except Nat Nat)
    (db coll cid : String) :
    (∀ v, lookupSeq store (db, coll, cid) = some v →
      (NextSeq st store true reconn none db coll cid).1 = (v + 1, none) ∧
      lookupSeq (NextSeq st store true reconn none db coll cid).2.2
        (db, coll, cid) = some (v + 1)) ∧
    (lookupSeq store (db, coll, cid) = none →
      (NextSeq st store true reconn none db coll cid).1 =
        (0, some DBErr.noDocuments)) ∧
    (∀ r1 r2 r3, lookupSeq store (db, coll, cid) = some 0 →
      r1 = NextSeq st store true reconn none db coll cid →
      r2 = NextSeq r1.2.1 r1.2.2 true reconn none db coll cid →
      r3 = NextSeq r2.2.1 r2.2.2 true reconn none db coll cid →
      r1.1 = (1, none) ∧ r2.1 = (2, none) ∧ r3.1 = (3, none)) := by
  have hgen : ∀ (pool : ClientHeap) (sto : Store) (v : Int),
      lookupSeq sto (db, coll, cid) = some v →
      (NextSeq pool sto true reconn none db coll cid).1 = (v + 1, none) ∧
      lookupSeq (NextSeq pool sto true reconn none db coll cid).2.2
        (db, coll, cid) = some (v + 1) := by
    intro pool sto v hlk
    have h := NextSeq_found pool sto reconn db coll cid v hlk
    refine ⟨h.1, ?_⟩
    rw [h.2]
    exact lookupSeq_setSeq sto _ (v+1) v hlk
  refine ⟨fun v => hgen st store v, ?_, ?_⟩
  · intro hlk
    exact (NextSeq_absent st store reconn db coll cid hlk).1
  · intro r1 r2 r3 hlk h1 h2 h3
    have g1 := hgen st store 0 hlk
    rw [← h1] at g1
    have g2 := hgen r1.2.1 r1.2.2 1 (by simpa using g1.2)
    rw [← h2] at g2
    have g3 := hgen r2.2.1 r2.2.2 2 (by simpa using g2.2)
    rw [← h3] at g3
    exact ⟨by simpa using g1.1, by simpa using g2.1, by simpa using g3.1⟩

theorem leaf_C8_witness :
    (NextSeq [(⟨0, 0, 0⟩ : Client)] [(("d", "c", "i"), 0)] true (Except.ok 0)
      none "d" "c" "i").1 = (1, none) := by
  have h := ((leaf_C8 [(⟨0, 0, 0⟩ : Client)] [(("d", "c", "i"), 0)]
    (Except.ok 0) "d" "c" "i").1 0 rfl).1
  simpa using h

/-- C9: `Close` disconnects every client in the pool; a nonzero ref count at
teardown yields only a diagnostic log and never stops, skips or fails the
disconnection of that client or of the remaining ones. -/
theorem leaf_C9 (st : ClientHeap) :
    ((closeOp st).countP isDisc = st.length) ∧
    (∀ i, i < st.length → Ev.disc (connAt st i) ∈ closeOp st) ∧
    (∀ r, Ev.log r ∈ closeOp st ↔
      r ≠ 0 ∧ ∃ i, i < st.length ∧ refAt st i = r) :=
  ⟨closeOp_disc_count st, closeOp_disc_mem st, fun r => closeOp_log_iff st r⟩

theorem leaf_C9_witness :
    Ev.disc (connAt [(⟨1, 2, 0⟩ : Client), ⟨3, 0, 1⟩] 1) ∈
      closeOp [(⟨1, 2, 0⟩ : Client), ⟨3, 0, 1⟩] :=
  (leaf_C9 [⟨1, 2, 0⟩, ⟨3, 0, 1⟩]).2.1 1 (by decide)

/-- C10: `ensureIndex` (reached via `EnsureIndex` with `unique = false` and
`EnsureUniqueIndex` with `unique = true`) requests creation of a single index
whose keys are the given fields in order, each ascending (value 1), sparse,
with exactly the given uniqueness flag. -/
theorem leaf_C10 (st : ClientHeap) (reconn : Except Nat Nat)
    (fault : Option Nat) (db coll : String) (key : List String) (unique : Bool) :
    (ensureIndex st true reconn fault db coll key unique).2.2 =
      [((db, coll),
        { keys := key.map (fun k => (k, 1)), unique := unique, sparse := true })] ∧
    EnsureIndex st true reconn fault db coll key =
      ensureIndex st true reconn fault db coll key false ∧
    EnsureUniqueIndex st true reconn fault db coll key =
      ensureIndex st true reconn fault db coll key true := by
  obtain ⟨p, st1, evs, heq⟩ := refOp_some_of_ping st reconn
  refine ⟨?_, rfl, rfl⟩
  unfold ensureIndex
  rw [heq]

end LeafMongo
